import Mathlib

/-!
# Verification of the SLE password-based encryption core

Shallow embedding of `src/src/encryption.py` (class `SLE`): PBKDF2-based key
derivation, PKCS7 padding, AES-256-CBC framing with a fixed marker, and the
error behaviour of `decrypt`.

Bytes are modelled as `Nat` (values below 256 where it matters), byte strings
as `List Nat`. The external `cryptography` library primitives (the AES block
permutation and the PBKDF2 function) are collaborators outside this
repository; they enter the model as explicit function parameters, with their
contractual properties (block-cipher inversion, output length) taken as
hypotheses where a theorem needs them. Everything the repository itself
implements — framing, padding calls, length checks, the marker check, the
error sites — is translated directly from the source.
-/

/-- Errors raised by the SLE core, one constructor per raise site reachable
from `_derive_key` / `encrypt` / `decrypt` (all are `ValueError` in the
source; the spec's taxonomy names them). -/
inductive SLEError where
  /-- "Salt must be exactly 16 bytes." (`_derive_key`) -/
  | invalidSaltLength
  /-- "Encrypted data is too short or corrupted." (`decrypt`, length < 32) and
  the CBC decryptor finalize error when the ciphertext length is not a
  multiple of the block length. -/
  | malformedBlob
  /-- "Invalid padding bytes." raised by the PKCS7 unpadder finalize. -/
  | invalidPadding
  /-- "Invalid password or data corrupted." (`decrypt`, marker missing). -/
  | authenticationFailed
deriving DecidableEq, Repr

/-- `MAGIC_HEADER = b"__SLE__"`: the ASCII bytes of the marker constant. -/
def MAGIC_HEADER : List Nat := "__SLE__".toList.map Char.toNat

/-- Parameters the source passes to `PBKDF2HMAC`: hash digest size in bits
(`hashes.SHA256()`), output `length`, and `iterations`. -/
structure KDFParams where
  hashBits : Nat
  length : Nat
  iterations : Nat
deriving DecidableEq, Repr

/-- The PBKDF2 collaborator: parameters, password, salt ↦ derived key. -/
def KDF : Type := KDFParams → List Nat → List Nat → List Nat

/-- The AES block permutation collaborator: `enc`/`dec` map a 32-byte key and
a 16-byte block to a 16-byte block. -/
structure BlockCipher where
  enc : List Nat → List Nat → List Nat
  dec : List Nat → List Nat → List Nat

/-- Bytewise XOR of two byte strings (truncating to the shorter). -/
def xorBytes (a b : List Nat) : List Nat := List.zipWith (fun x y => x ^^^ y) a b

/-- Split a byte string into 16-byte blocks, fuel-indexed so that it reduces
definitionally; the last block is shorter when the length is not a multiple
of 16. -/
def chunksGo : Nat → List Nat → List (List Nat)
  | _, [] => []
  | 0, _ :: _ => []
  | Nat.succ n, a :: rest => (a :: rest).take 16 :: chunksGo n ((a :: rest).drop 16)

/-- Split a byte string into 16-byte blocks. -/
def chunks16 (bs : List Nat) : List (List Nat) := chunksGo bs.length bs

/-- CBC-mode encryption over a list of blocks: each plaintext block is XORed
with the previous ciphertext block (initially the IV) before the block
permutation. -/
def cbcEncBlocks (encB : List Nat → List Nat) : List Nat → List (List Nat) → List (List Nat)
  | _, [] => []
  | prev, b :: rest =>
    let c := encB (xorBytes prev b)
    c :: cbcEncBlocks encB c rest

/-- CBC-mode decryption over a list of blocks: each ciphertext block is
inverted and XORed with the previous ciphertext block (initially the IV). -/
def cbcDecBlocks (decB : List Nat → List Nat) : List Nat → List (List Nat) → List (List Nat)
  | _, [] => []
  | prev, c :: rest => xorBytes prev (decB c) :: cbcDecBlocks decB c rest

/-- `padding.PKCS7(128).padder()`: append `p` copies of the byte `p`, where
`p = 16 - len % 16` (so `1 ≤ p ≤ 16`). -/
def pkcs7Pad (bs : List Nat) : List Nat :=
  bs ++ List.replicate (16 - bs.length % 16) (16 - bs.length % 16)

/-- `padding.PKCS7(128).unpadder()`: the buffered finalize fails unless the
input is a non-zero multiple of the block size whose last byte `p` satisfies
`1 ≤ p ≤ 16` and whose last `p` bytes all equal `p`; on success it strips
those `p` bytes. `none` models the `ValueError("Invalid padding bytes.")`. -/
def pkcs7Unpad (bs : List Nat) : Option (List Nat) :=
  if bs.length % 16 ≠ 0 ∨ bs.length = 0 then none
  else
    match bs.getLast? with
    | none => none
    | some p =>
      if 1 ≤ p ∧ p ≤ 16 ∧ p ≤ bs.length ∧ (bs.drop (bs.length - p)).all (fun x => x = p) then
        some (bs.take (bs.length - p))
      else none

namespace SLE

/-- Python values a caller might pass as the `password` argument of
`SLE.__init__`; the constructor checks `isinstance(password, bytes)`. -/
inductive PyVal where
  | bytes (bs : List Nat)
  | str (s : String)
  | int (n : Int)
  | pyNone
deriving DecidableEq, Repr

/-- `SLE.__init__`: reject any non-`bytes` password with a `TypeError`,
otherwise store the password unchanged. -/
def init : PyVal → Except String (List Nat)
  | .bytes bs => .ok bs
  | _ => .error "Password must be of type bytes."

/-- `SLE._derive_key`: enforce the 16-byte salt, then call PBKDF2 with
SHA-256 (256-bit digest), output length 32 and 100000 iterations. -/
def derive_key (pbkdf2 : KDF) (password salt : List Nat) : Except SLEError (List Nat) :=
  if salt.length ≠ 16 then .error .invalidSaltLength
  else .ok (pbkdf2 { hashBits := 256, length := 32, iterations := 100000 } password salt)

/-- `SLE.encrypt`: derive a key from the (random) salt, PKCS7-pad
`MAGIC_HEADER + data`, encrypt in CBC mode under the (random) IV, and return
`salt + iv + ciphertext`. The two `os.urandom(16)` outputs are passed in as
`salt` and `iv`. -/
def encrypt (C : BlockCipher) (pbkdf2 : KDF) (password data salt iv : List Nat) :
    Except SLEError (List Nat) :=
  match derive_key pbkdf2 password salt with
  | .error e => .error e
  | .ok key =>
    let padded := pkcs7Pad (MAGIC_HEADER ++ data)
    let encrypted := (cbcEncBlocks (C.enc key) iv (chunks16 padded)).flatten
    .ok (salt ++ (iv ++ encrypted))

/-- `SLE.decrypt`: reject blobs shorter than 32 bytes, split off salt and IV,
re-derive the key, CBC-decrypt (the decryptor finalize rejects ciphertext
whose length is not a multiple of the block length), strip PKCS7 padding,
check the marker, and return the bytes after it. -/
def decrypt (C : BlockCipher) (pbkdf2 : KDF) (password encrypted_data : List Nat) :
    Except SLEError (List Nat) :=
  if encrypted_data.length < 32 then .error .malformedBlob
  else
    let salt := encrypted_data.take 16
    let iv := (encrypted_data.drop 16).take 16
    let encrypted := encrypted_data.drop 32
    match derive_key pbkdf2 password salt with
    | .error e => .error e
    | .ok key =>
      if encrypted.length % 16 ≠ 0 then .error .malformedBlob
      else
        let padded := (cbcDecBlocks (C.dec key) iv (chunks16 encrypted)).flatten
        match pkcs7Unpad padded with
        | none => .error .invalidPadding
        | some data =>
          if data.take MAGIC_HEADER.length = MAGIC_HEADER then
            .ok (data.drop MAGIC_HEADER.length)
          else .error .authenticationFailed

end SLE

deriving instance DecidableEq for Except

/-- A degenerate block cipher (both directions the identity) used to
instantiate witnesses; it trivially satisfies the inversion and
length-preservation contracts. -/
def idCipher : BlockCipher := { enc := fun _ b => b, dec := fun _ b => b }

/-- A degenerate KDF returning `length` zero bytes, used to instantiate
witnesses; it trivially honours the requested output length. -/
def zeroKDF : KDF := fun pr _ _ => List.replicate pr.length 0

theorem length_xorBytes (a b : List Nat) : (xorBytes a b).length = min a.length b.length := by
  simp [xorBytes]

theorem xorBytes_xorBytes (a b : List Nat) (h : b.length ≤ a.length) :
    xorBytes a (xorBytes a b) = b := by
  induction a generalizing b with
  | nil =>
    simp at h
    simp [h, xorBytes]
  | cons x a ih =>
    cases b with
    | nil => simp [xorBytes]
    | cons y b =>
      simp only [xorBytes, List.zipWith_cons_cons] at *
      refine congrArg₂ _ ?_ (ih b (by simpa using h))
      rw [← Nat.xor_assoc, Nat.xor_self, Nat.zero_xor]

theorem chunksGo_flatten (n : Nat) (bs : List Nat) (h : bs.length ≤ n) :
    (chunksGo n bs).flatten = bs := by
  induction n generalizing bs with
  | zero =>
    cases bs with
    | nil => rfl
    | cons a rest => simp at h
  | succ m ih =>
    cases bs with
    | nil => rfl
    | cons a rest =>
      simp only [chunksGo, List.flatten_cons]
      rw [ih ((a :: rest).drop 16) (by simp at h ⊢; omega), List.take_append_drop]

theorem chunks16_flatten (bs : List Nat) : (chunks16 bs).flatten = bs :=
  chunksGo_flatten bs.length bs (Nat.le_refl _)

theorem chunksGo_fuel (n₁ n₂ : Nat) (bs : List Nat) (h₁ : bs.length ≤ n₁)
    (h₂ : bs.length ≤ n₂) : chunksGo n₁ bs = chunksGo n₂ bs := by
  induction n₁ generalizing n₂ bs with
  | zero =>
    cases bs with
    | nil => cases n₂ <;> rfl
    | cons a rest => simp at h₁
  | succ m ih =>
    cases bs with
    | nil => cases n₂ <;> rfl
    | cons a rest =>
      cases n₂ with
      | zero => simp at h₂
      | succ m₂ =>
        simp only [chunksGo]
        rw [ih m₂ ((a :: rest).drop 16) (by simp at h₁ ⊢; omega) (by simp at h₂ ⊢; omega)]

theorem chunks16_append_block (b rest : List Nat) (hb : b.length = 16) :
    chunks16 (b ++ rest) = b :: chunks16 rest := by
  have hne : b ++ rest ≠ [] := by
    intro h
    rcases List.append_eq_nil.mp h with ⟨h1, _⟩
    simp [h1] at hb
  obtain ⟨a, t, hat⟩ := List.exists_cons_of_ne_nil hne
  unfold chunks16
  rw [hat]
  have hlen : (a :: t).length = 16 + rest.length := by
    rw [← hat]; simp [hb]
  cases hl : (a :: t).length with
  | zero => simp at hl
  | succ m =>
    simp only [chunksGo]
    have htake : (a :: t).take 16 = b := by
      rw [← hat, List.take_append_of_le_length (by omega), List.take_of_length_le (by omega)]
    have hdrop : (a :: t).drop 16 = rest := by
      rw [← hat, List.drop_append_of_le_length (by omega)]
      simp [hb]
    rw [htake, hdrop, chunksGo_fuel m rest.length rest (by omega) (Nat.le_refl _)]

theorem chunks16_block_length (bs : List Nat) (h : bs.length % 16 = 0) :
    ∀ c ∈ chunks16 bs, c.length = 16 := by
  have key : ∀ n bs, bs.length ≤ n → bs.length % 16 = 0 → ∀ c ∈ chunksGo n bs, c.length = 16 := by
    intro n
    induction n with
    | zero =>
      intro bs hle _ c hc
      cases bs with
      | nil => simp [chunksGo] at hc
      | cons a rest => simp at hle
    | succ m ih =>
      intro bs hle hmod c hc
      cases bs with
      | nil => simp [chunksGo] at hc
      | cons a rest =>
        simp only [chunksGo, List.mem_cons] at hc
        rcases hc with hc | hc
        · subst hc
          simp only [List.length_take]
          have : (a :: rest).length ≠ 0 := by simp
          omega
        · exact ih ((a :: rest).drop 16) (by simp at hle ⊢; omega)
            (by simp at hmod ⊢; omega) c hc
  exact key bs.length bs (Nat.le_refl _) h

theorem chunks16_flatten_blocks (blocks : List (List Nat))
    (h : ∀ b ∈ blocks, b.length = 16) : chunks16 blocks.flatten = blocks := by
  induction blocks with
  | nil => rfl
  | cons b rest ih =>
    rw [List.flatten_cons, chunks16_append_block b rest.flatten (h b (by simp)),
      ih (fun c hc => h c (by simp [hc]))]

theorem length_pkcs7Pad (bs : List Nat) :
    (pkcs7Pad bs).length = bs.length + (16 - bs.length % 16) := by
  simp [pkcs7Pad]

theorem length_pkcs7Pad_mod (bs : List Nat) : (pkcs7Pad bs).length % 16 = 0 := by
  rw [length_pkcs7Pad]
  omega

theorem pkcs7Unpad_pkcs7Pad (bs : List Nat) : pkcs7Unpad (pkcs7Pad bs) = some bs := by
  set p := 16 - bs.length % 16 with hp
  have hp1 : 1 ≤ p := by omega
  have hp16 : p ≤ 16 := by omega
  have hlen : (pkcs7Pad bs).length = bs.length + p := length_pkcs7Pad bs
  have hlast : (pkcs7Pad bs).getLast? = some p := by
    unfold pkcs7Pad
    rw [← hp]
    have : List.replicate p p = List.replicate (p - 1) p ++ [p] := by
      have := List.replicate_succ' (p - 1) p
      rw [← this]
      congr 1
      omega
    rw [this, ← List.append_assoc, List.getLast?_concat]
  have hdrop : (pkcs7Pad bs).drop ((pkcs7Pad bs).length - p) = List.replicate p p := by
    rw [hlen]
    unfold pkcs7Pad
    rw [← hp, Nat.add_sub_cancel, List.drop_append_of_le_length (Nat.le_refl _)]
    simp
  have htake : (pkcs7Pad bs).take ((pkcs7Pad bs).length - p) = bs := by
    rw [hlen]
    unfold pkcs7Pad
    rw [← hp, Nat.add_sub_cancel, List.take_append_of_le_length (Nat.le_refl _)]
    simp
  simp only [pkcs7Unpad, hlast, hdrop, htake]
  rw [if_neg (by rw [hlen]; push_neg; exact ⟨by omega, by omega⟩)]
  rw [if_pos ⟨hp1, hp16, by omega, by simp [List.all_eq_true, List.mem_replicate]⟩]

theorem cbcDecBlocks_cbcEncBlocks (C : BlockCipher) (key : List Nat)
    (hdec : ∀ b, b.length = 16 → C.dec key (C.enc key b) = b)
    (henc : ∀ b, b.length = 16 → (C.enc key b).length = 16)
    (blocks : List (List Nat)) (iv : List Nat) (hiv : iv.length = 16)
    (hblocks : ∀ b ∈ blocks, b.length = 16) :
    cbcDecBlocks (C.dec key) iv (cbcEncBlocks (C.enc key) iv blocks) = blocks := by
  induction blocks generalizing iv with
  | nil => rfl
  | cons b rest ih =>
    have hb : b.length = 16 := hblocks b (by simp)
    have hxlen : (xorBytes iv b).length = 16 := by
      simp [length_xorBytes, hiv, hb]
    simp only [cbcEncBlocks, cbcDecBlocks]
    rw [hdec _ hxlen, xorBytes_xorBytes iv b (by omega),
      ih _ (henc _ hxlen) (fun c hc => hblocks c (by simp [hc]))]

theorem cbcEncBlocks_length (encB : List Nat → List Nat) (iv : List Nat)
    (blocks : List (List Nat)) :
    (cbcEncBlocks encB iv blocks).length = blocks.length := by
  induction blocks generalizing iv with
  | nil => rfl
  | cons b rest ih => simp [cbcEncBlocks, ih]

theorem cbcEncBlocks_block_length (C : BlockCipher) (key : List Nat)
    (henc : ∀ b, b.length = 16 → (C.enc key b).length = 16)
    (blocks : List (List Nat)) (iv : List Nat) (hiv : iv.length = 16)
    (hblocks : ∀ b ∈ blocks, b.length = 16) :
    ∀ c ∈ cbcEncBlocks (C.enc key) iv blocks, c.length = 16 := by
  induction blocks generalizing iv with
  | nil => simp [cbcEncBlocks]
  | cons b rest ih =>
    intro c hc
    have hb : b.length = 16 := hblocks b (by simp)
    have hxlen : (xorBytes iv b).length = 16 := by
      simp [length_xorBytes, hiv, hb]
    simp only [cbcEncBlocks, List.mem_cons] at hc
    rcases hc with hc | hc
    · rw [hc]; exact henc _ hxlen
    · exact ih _ (henc _ hxlen) (fun d hd => hblocks d (by simp [hd])) c hc

theorem flatten_length_blocks (blocks : List (List Nat))
    (h : ∀ b ∈ blocks, b.length = 16) : blocks.flatten.length = 16 * blocks.length := by
  induction blocks with
  | nil => rfl
  | cons b rest ih =>
    simp only [List.flatten_cons, List.length_append, List.length_cons]
    rw [h b (by simp), ih (fun c hc => h c (by simp [hc]))]
    ring

theorem encrypt_eq (C : BlockCipher) (pbkdf2 : KDF) (password data salt iv : List Nat)
    (hsalt : salt.length = 16) :
    SLE.encrypt C pbkdf2 password data salt iv =
      .ok (salt ++ (iv ++ (cbcEncBlocks
        (C.enc (pbkdf2 { hashBits := 256, length := 32, iterations := 100000 } password salt))
        iv (chunks16 (pkcs7Pad (MAGIC_HEADER ++ data)))).flatten)) := by
  unfold SLE.encrypt SLE.derive_key
  rw [if_neg (by simp [hsalt])]

theorem blob_split (s v ct : List Nat) (hs : s.length = 16) (hv : v.length = 16) :
    (s ++ (v ++ ct)).take 16 = s ∧ ((s ++ (v ++ ct)).drop 16).take 16 = v ∧
      (s ++ (v ++ ct)).drop 32 = ct := by
  refine ⟨List.take_left' hs, ?_, ?_⟩
  · rw [List.drop_left' hs, List.take_left' hv]
  · rw [← List.append_assoc, List.drop_left' (by simp [hs, hv])]

/-- C1: for every byte sequence `p` and non-empty password `k`, decrypting
the result of `encrypt` with the same password returns the original
plaintext byte-identically, given the block-cipher contract (the AES
permutation inverts itself and preserves the 16-byte block length) and
16-byte salt and IV as produced by `os.urandom(16)`. -/
theorem sle_decrypt_encrypt_roundtrip (C : BlockCipher) (pbkdf2 : KDF)
    (password data salt iv blob : List Nat)
    (hdec : ∀ key b, b.length = 16 → C.dec key (C.enc key b) = b)
    (henc : ∀ key b, b.length = 16 → (C.enc key b).length = 16)
    (_hpw : password ≠ []) (hsalt : salt.length = 16) (hiv : iv.length = 16)
    (hblob : SLE.encrypt C pbkdf2 password data salt iv = .ok blob) :
    SLE.decrypt C pbkdf2 password blob = .ok data := by
  rw [encrypt_eq C pbkdf2 password data salt iv hsalt] at hblob
  injection hblob with hblob
  set key := pbkdf2 { hashBits := 256, length := 32, iterations := 100000 } password salt
    with hkey
  set padded := pkcs7Pad (MAGIC_HEADER ++ data) with hpadded
  set ptBlocks := chunks16 padded with hptB
  set ctBlocks := cbcEncBlocks (C.enc key) iv ptBlocks with hctB
  set ct := ctBlocks.flatten with hct
  have hptlen : ∀ b ∈ ptBlocks, b.length = 16 :=
    chunks16_block_length padded (length_pkcs7Pad_mod _)
  have hctblen : ∀ c ∈ ctBlocks, c.length = 16 :=
    cbcEncBlocks_block_length C key (henc key) ptBlocks iv hiv hptlen
  have hctlen : ct.length = 16 * ctBlocks.length := flatten_length_blocks ctBlocks hctblen
  obtain ⟨h1, h2, h3⟩ := blob_split salt iv ct hsalt hiv
  subst hblob
  unfold SLE.decrypt SLE.derive_key
  rw [if_neg (by simp [hsalt, hiv]; omega)]
  simp only [h1, h2, h3, hsalt]
  rw [if_neg (by simp)]
  simp only
  rw [if_neg (by omega)]
  rw [← hkey, chunks16_flatten_blocks ctBlocks hctblen, hctB,
    cbcDecBlocks_cbcEncBlocks C key (hdec key) (henc key) ptBlocks iv hiv hptlen,
    hptB, chunks16_flatten padded, hpadded, pkcs7Unpad_pkcs7Pad]
  simp only
  rw [if_pos (List.take_left' rfl), List.drop_left' rfl]

/-- A constant block cipher used by length witnesses: it preserves the block
length (the only contract those witnesses need) while producing all-zero
ciphertext blocks. -/
def zeroCipher : BlockCipher :=
  { enc := fun _ _ => List.replicate 16 0, dec := fun _ _ => List.replicate 16 0 }

/-- C1 witness: the round-trip theorem applied to a concrete cipher, KDF,
password, plaintext, salt and IV. -/
theorem sle_decrypt_encrypt_roundtrip_witness :
    SLE.decrypt idCipher zeroKDF [1] (List.replicate 16 0 ++ (List.replicate 16 0 ++
      [95, 95, 83, 76, 69, 95, 95, 2, 3, 7, 7, 7, 7, 7, 7, 7])) = .ok [2, 3] :=
  sle_decrypt_encrypt_roundtrip idCipher zeroKDF [1] [2, 3] (List.replicate 16 0)
    (List.replicate 16 0)
    (List.replicate 16 0 ++ (List.replicate 16 0 ++
      [95, 95, 83, 76, 69, 95, 95, 2, 3, 7, 7, 7, 7, 7, 7, 7]))
    (fun _ _ _ => rfl) (fun _ _ hb => hb) (by decide) (by decide) (by decide) (by decide)

/-- C2 counterexample: a 32-byte blob has a ciphertext portion of length 0,
which is not a non-zero multiple of 16, yet `decrypt` fails with the
invalid-padding error (raised by the PKCS7 unpadder), not with
MalformedBlob. -/
theorem sle_decrypt_malformed_counterexample :
    SLE.decrypt idCipher zeroKDF [1] (List.replicate 32 0) =
        .error SLEError.invalidPadding ∧
      SLE.decrypt idCipher zeroKDF [1] (List.replicate 32 0) ≠
        .error SLEError.malformedBlob := by
  decide

/-- C2 amended: `decrypt` fails with MalformedBlob for any blob shorter than
32 bytes and for any blob whose ciphertext portion length is not a multiple
of 16; for a ciphertext portion of length exactly 0 (a 32-byte blob) it also
fails, but with InvalidPadding rather than MalformedBlob. -/
theorem sle_decrypt_malformed_amended (C : BlockCipher) (pbkdf2 : KDF)
    (password blob : List Nat) :
    (blob.length < 32 → SLE.decrypt C pbkdf2 password blob = .error .malformedBlob) ∧
    (32 ≤ blob.length → (blob.length - 32) % 16 ≠ 0 →
      SLE.decrypt C pbkdf2 password blob = .error .malformedBlob) ∧
    (blob.length = 32 → SLE.decrypt C pbkdf2 password blob = .error .invalidPadding) := by
  refine ⟨?_, ?_, ?_⟩
  · intro h
    unfold SLE.decrypt
    rw [if_pos h]
  · intro h32 hmod
    unfold SLE.decrypt SLE.derive_key
    rw [if_neg (by omega)]
    have hsalt : (blob.take 16).length = 16 := by
      simp [List.length_take]
      omega
    simp only [hsalt]
    rw [if_neg (by simp)]
    simp only
    rw [if_pos (by simp [List.length_drop]; omega)]
  · intro h32
    unfold SLE.decrypt SLE.derive_key
    rw [if_neg (by omega)]
    have hsalt : (blob.take 16).length = 16 := by
      simp [List.length_take]
      omega
    have hdrop : blob.drop 32 = [] := List.drop_eq_nil_of_le (by omega)
    simp only [hsalt, hdrop]
    rw [if_neg (by simp)]
    simp only
    rw [if_neg (by simp)]
    rfl

/-- C2 witness: the amended theorem applied to a short blob, a blob with a
17-byte ciphertext portion, and a 32-byte blob. -/
theorem sle_decrypt_malformed_amended_witness :
    SLE.decrypt idCipher zeroKDF [1] [0, 1, 2] = .error .malformedBlob ∧
    SLE.decrypt idCipher zeroKDF [1] (List.replicate 49 0) = .error .malformedBlob ∧
    SLE.decrypt idCipher zeroKDF [1] (List.replicate 32 5) = .error .invalidPadding :=
  ⟨(sle_decrypt_malformed_amended idCipher zeroKDF [1] [0, 1, 2]).1 (by decide),
   (sle_decrypt_malformed_amended idCipher zeroKDF [1] (List.replicate 49 0)).2.1
     (by decide) (by decide),
   (sle_decrypt_malformed_amended idCipher zeroKDF [1] (List.replicate 32 5)).2.2
     (by decide)⟩

/-- C3: the blob produced by `encrypt` is exactly 32 bytes of header plus the
marker-prefixed plaintext PKCS7-padded up to a multiple of 16 with at least
one pad byte: `32 + ceil((len(p) + 7 + 1) / 16) * 16` bytes in total. -/
theorem sle_encrypt_length (C : BlockCipher) (pbkdf2 : KDF)
    (password data salt iv blob : List Nat)
    (henc : ∀ key b, b.length = 16 → (C.enc key b).length = 16)
    (hsalt : salt.length = 16) (hiv : iv.length = 16)
    (hblob : SLE.encrypt C pbkdf2 password data salt iv = .ok blob) :
    blob.length = 32 + (data.length + 7 + 1 + 15) / 16 * 16 := by
  rw [encrypt_eq C pbkdf2 password data salt iv hsalt] at hblob
  injection hblob with hblob
  set key := pbkdf2 { hashBits := 256, length := 32, iterations := 100000 } password salt
    with hkey
  set padded := pkcs7Pad (MAGIC_HEADER ++ data) with hpadded
  set ptBlocks := chunks16 padded with hptB
  set ctBlocks := cbcEncBlocks (C.enc key) iv ptBlocks with hctB
  have hptlen : ∀ b ∈ ptBlocks, b.length = 16 :=
    chunks16_block_length padded (length_pkcs7Pad_mod _)
  have hctblen : ∀ c ∈ ctBlocks, c.length = 16 :=
    cbcEncBlocks_block_length C key (henc key) ptBlocks iv hiv hptlen
  have hctlen : ctBlocks.flatten.length = 16 * ctBlocks.length :=
    flatten_length_blocks ctBlocks hctblen
  have hnum : ctBlocks.length = ptBlocks.length := by
    rw [hctB, cbcEncBlocks_length]
  have hpt16 : ptBlocks.flatten.length = 16 * ptBlocks.length :=
    flatten_length_blocks ptBlocks hptlen
  have hptflat : ptBlocks.flatten = padded := by
    rw [hptB, chunks16_flatten]
  have hplen : padded.length =
      (7 + data.length) + (16 - (7 + data.length) % 16) := by
    rw [hpadded, length_pkcs7Pad]
    have hm : (MAGIC_HEADER ++ data).length = 7 + data.length := by
      simp [MAGIC_HEADER]
      omega
    rw [hm]
  rw [← hblob]
  simp only [List.length_append, hsalt, hiv]
  rw [hptflat] at hpt16
  omega

/-- C3 witness: the length theorem applied to the 10-byte plaintext
`b"top secret"`, giving a 64-byte blob. -/
theorem sle_encrypt_length_witness :
    (List.replicate 64 0).length =
      32 + (([116, 111, 112, 32, 115, 101, 99, 114, 101, 116] : List Nat).length
        + 7 + 1 + 15) / 16 * 16 :=
  sle_encrypt_length zeroCipher zeroKDF [107] [116, 111, 112, 32, 115, 101, 99, 114, 101, 116]
    (List.replicate 16 0) (List.replicate 16 0) (List.replicate 64 0)
    (fun _ _ _ => rfl) (by decide) (by decide) (by decide)

/-- C4: key derivation rejects any salt whose length is not exactly 16 bytes
with the invalid-salt-length error, and succeeds (raising no such error) for
a 16-byte salt. -/
theorem sle_derive_key_salt_check (pbkdf2 : KDF) (password salt : List Nat) :
    (salt.length ≠ 16 →
      SLE.derive_key pbkdf2 password salt = .error .invalidSaltLength) ∧
    (salt.length = 16 → ∃ key, SLE.derive_key pbkdf2 password salt = .ok key) := by
  constructor
  · intro h
    unfold SLE.derive_key
    rw [if_pos h]
  · intro h
    refine ⟨pbkdf2 { hashBits := 256, length := 32, iterations := 100000 } password salt, ?_⟩
    unfold SLE.derive_key
    rw [if_neg (by simp [h])]

/-- C4 witness: the salt-length theorem applied to a 3-byte and a 16-byte
salt. -/
theorem sle_derive_key_salt_check_witness :
    SLE.derive_key zeroKDF [1] [0, 0, 0] = .error .invalidSaltLength ∧
    ∃ key, SLE.derive_key zeroKDF [1] (List.replicate 16 0) = .ok key :=
  ⟨(sle_derive_key_salt_check zeroKDF [1] [0, 0, 0]).1 (by decide),
   (sle_derive_key_salt_check zeroKDF [1] (List.replicate 16 0)).2 (by decide)⟩

/-- C5: once padding removal has succeeded inside `decrypt`, the call fails
with the authentication error exactly when the recovered bytes do not start
with `MAGIC_HEADER`, and otherwise returns exactly the bytes following the
marker. -/
theorem sle_decrypt_marker_check (C : BlockCipher) (pbkdf2 : KDF)
    (password blob data : List Nat)
    (h32 : 32 ≤ blob.length)
    (hmod : (blob.length - 32) % 16 = 0)
    (hunpad : pkcs7Unpad (cbcDecBlocks
        (C.dec (pbkdf2 { hashBits := 256, length := 32, iterations := 100000 } password
          (blob.take 16)))
        ((blob.drop 16).take 16) (chunks16 (blob.drop 32))).flatten = some data) :
    (data.take MAGIC_HEADER.length = MAGIC_HEADER →
      SLE.decrypt C pbkdf2 password blob = .ok (data.drop MAGIC_HEADER.length)) ∧
    (data.take MAGIC_HEADER.length ≠ MAGIC_HEADER →
      SLE.decrypt C pbkdf2 password blob = .error .authenticationFailed) := by
  have hsalt : (blob.take 16).length = 16 := by
    simp [List.length_take]
    omega
  constructor
  · intro hmarker
    unfold SLE.decrypt SLE.derive_key
    rw [if_neg (by omega)]
    simp only [hsalt]
    rw [if_neg (by simp)]
    simp only
    rw [if_neg (by simp [List.length_drop]; omega), hunpad]
    simp only
    rw [if_pos hmarker]
  · intro hmarker
    unfold SLE.decrypt SLE.derive_key
    rw [if_neg (by omega)]
    simp only [hsalt]
    rw [if_neg (by simp)]
    simp only
    rw [if_neg (by simp [List.length_drop]; omega), hunpad]
    simp only
    rw [if_neg hmarker]

/-- C5 witness: the marker-check theorem applied to a blob that decrypts to
marker-prefixed bytes and to one that decrypts to bytes without the
marker. -/
theorem sle_decrypt_marker_check_witness :
    SLE.decrypt idCipher zeroKDF [1] (List.replicate 16 0 ++ (List.replicate 16 0 ++
        [95, 95, 83, 76, 69, 95, 95, 2, 3, 7, 7, 7, 7, 7, 7, 7])) = .ok [2, 3] ∧
      SLE.decrypt idCipher zeroKDF [1] (List.replicate 16 0 ++ (List.replicate 16 0 ++
        List.replicate 16 16)) = .error .authenticationFailed :=
  ⟨(sle_decrypt_marker_check idCipher zeroKDF [1]
      (List.replicate 16 0 ++ (List.replicate 16 0 ++
        [95, 95, 83, 76, 69, 95, 95, 2, 3, 7, 7, 7, 7, 7, 7, 7]))
      [95, 95, 83, 76, 69, 95, 95, 2, 3]
      (by decide) (by decide) (by decide)).1 (by decide),
   (sle_decrypt_marker_check idCipher zeroKDF [1]
      (List.replicate 16 0 ++ (List.replicate 16 0 ++ List.replicate 16 16))
      [] (by decide) (by decide) (by decide)).2 (by decide)⟩

/-- C6: `_derive_key` calls the password-based KDF with a 256-bit hash,
100000 iterations and a 32-byte output length; assuming the KDF honours its
requested output length, the derived key has exactly 32 bytes, and equal
(password, salt) pairs yield identical keys. -/
theorem sle_derive_key_kdf_params (pbkdf2 : KDF) (password salt : List Nat)
    (hkdf : ∀ pr p s, (pbkdf2 pr p s).length = pr.length)
    (hsalt : salt.length = 16) :
    SLE.derive_key pbkdf2 password salt =
        .ok (pbkdf2 { hashBits := 256, length := 32, iterations := 100000 } password salt) ∧
      (pbkdf2 { hashBits := 256, length := 32, iterations := 100000 } password salt).length
        = 32 ∧
      ∀ password₂ salt₂, password₂ = password → salt₂ = salt →
        SLE.derive_key pbkdf2 password₂ salt₂ = SLE.derive_key pbkdf2 password salt := by
  refine ⟨?_, hkdf _ _ _, ?_⟩
  · unfold SLE.derive_key
    rw [if_neg (by simp [hsalt])]
  · intro password₂ salt₂ hp hs
    rw [hp, hs]

/-- C6 witness: the KDF-parameter theorem applied to a length-honouring KDF
and a 16-byte salt. -/
theorem sle_derive_key_kdf_params_witness :
    SLE.derive_key zeroKDF [3] (List.replicate 16 1) =
        .ok (zeroKDF { hashBits := 256, length := 32, iterations := 100000 } [3]
          (List.replicate 16 1)) ∧
      (zeroKDF { hashBits := 256, length := 32, iterations := 100000 } [3]
        (List.replicate 16 1)).length = 32 ∧
      ∀ password₂ salt₂, password₂ = [3] → salt₂ = List.replicate 16 1 →
        SLE.derive_key zeroKDF password₂ salt₂ =
          SLE.derive_key zeroKDF [3] (List.replicate 16 1) :=
  sle_derive_key_kdf_params zeroKDF [3] (List.replicate 16 1)
    (fun pr _ _ => List.length_replicate pr.length 0) (by decide)

/-- C8: for every password and plaintext, including empty ones, `encrypt`
returns a blob without raising any error, given that the secure random
source delivered its 16-byte salt. -/
theorem sle_encrypt_total (C : BlockCipher) (pbkdf2 : KDF)
    (password data salt iv : List Nat) (hsalt : salt.length = 16) :
    ∃ blob, SLE.encrypt C pbkdf2 password data salt iv = .ok blob :=
  ⟨_, encrypt_eq C pbkdf2 password data salt iv hsalt⟩

/-- C8 witness: `encrypt` succeeds on the empty password and the empty
plaintext. -/
theorem sle_encrypt_total_witness :
    ∃ blob, SLE.encrypt idCipher zeroKDF [] [] (List.replicate 16 0)
      (List.replicate 16 0) = .ok blob :=
  sle_encrypt_total idCipher zeroKDF [] [] (List.replicate 16 0) (List.replicate 16 0)
    (by decide)

/-- C9: the marker constant is exactly the 7 ASCII bytes of `"__SLE__"`. -/
theorem sle_magic_header_value :
    MAGIC_HEADER = [95, 95, 83, 76, 69, 95, 95] ∧ MAGIC_HEADER.length = 7 := by
  decide

/-- C10: the constructor accepts exactly the byte-sequence passwords, storing
the bytes unchanged, and rejects every other value with a type error. -/
theorem sle_init_password_type_check :
    (∀ bs, SLE.init (.bytes bs) = .ok bs) ∧
    (∀ v : SLE.PyVal, (∀ bs, v ≠ .bytes bs) →
      SLE.init v = .error "Password must be of type bytes.") := by
  constructor
  · intro bs
    rfl
  · intro v hv
    cases v with
    | bytes bs => exact absurd rfl (hv bs)
    | str s => rfl
    | int n => rfl
    | pyNone => rfl

/-- C10 witness: the constructor theorem applied to a concrete byte password
and a concrete string (non-bytes) password. -/
theorem sle_init_password_type_check_witness :
    SLE.init (.bytes [7, 8]) = .ok [7, 8] ∧
    SLE.init (.str "pw") = .error "Password must be of type bytes." :=
  ⟨sle_init_password_type_check.1 [7, 8],
   sle_init_password_type_check.2 (.str "pw") (fun _ h => nomatch h)⟩

